import Mathlib

/-!
Verification of the Engineer pipeline of ASI-GO-3 (`engineer.py`).

The Python code is shallowly embedded: strings become `List Char`, the
regular-expression scans of `re.findall` become explicit scanners, the
unbounded loops of `_is_prime` / `_first_n_primes` become fuel-indexed
recursions (the fuel is proved sufficient), floats holding the fixed
confidence scores become rationals, and the side effects of
`Engineer.test_solution` (child process, temporary file, result history)
are modelled by an explicit outcome datatype and an explicit record of
the visible state when the call returns.
-/

set_option maxRecDepth 4000

/-- Character list of a string literal; Python `str` values are modelled as `List Char`. -/
def chs (s : String) : List Char := s.data

/-- Model of the ASCII-digit test used for the regex class `\d`. -/
def isDigitCh (c : Char) : Bool := 48 ≤ c.toNat && c.toNat ≤ 57

/-- Model of Python whitespace (the regex class `\s` and `str.strip`):
space, tab, newline, carriage return, vertical tab, form feed. -/
def isSpaceCh (c : Char) : Bool :=
  c.toNat = 32 || c.toNat = 9 || c.toNat = 10 || c.toNat = 13 || c.toNat = 11 || c.toNat = 12

/-- Model of the regex class `\w`: ASCII letters, digits and underscore. -/
def isWordCh (c : Char) : Bool :=
  isDigitCh c || (65 ≤ c.toNat && c.toNat ≤ 90) || (97 ≤ c.toNat && c.toNat ≤ 122) || c.toNat = 95

/-- ASCII model of `str.lower` applied to one character. -/
def toLowerCh (c : Char) : Char :=
  if 65 ≤ c.toNat ∧ c.toNat ≤ 90 then Char.ofNat (c.toNat + 32) else c

/-- Model of Python `goal.lower()`. -/
def pyLower (cs : List Char) : List Char := cs.map toLowerCh

/-- Boolean list-prefix test (used to model `str.startswith` and substring search). -/
def isPrefixCh : List Char → List Char → Bool
  | [], _ => true
  | _ :: _, [] => false
  | a :: as, b :: bs => a = b && isPrefixCh as bs

/-- Model of Python `needle in hay` (substring containment). -/
def containsSub (needle : List Char) : List Char → Bool
  | [] => isPrefixCh needle []
  | b :: bs => isPrefixCh needle (b :: bs) || containsSub needle bs

/-- Model of Python `s.strip()`: drop whitespace from both ends. -/
def pyStrip (cs : List Char) : List Char :=
  ((cs.dropWhile isSpaceCh).reverse.dropWhile isSpaceCh).reverse

/-- Model of the truthiness test `not output or not output.strip()`. -/
def isBlankPy (cs : List Char) : Bool := cs.isEmpty || (pyStrip cs).isEmpty

/-- Model of `s.endswith(":")`. -/
def endsColon (cs : List Char) : Bool := cs.getLast? = some ':'

/-- Longest run of leading characters satisfying `p`, together with the rest. -/
def grabWhile (p : Char → Bool) : List Char → List Char × List Char
  | [] => ([], [])
  | c :: rest =>
    if p c then
      let q := grabWhile p rest
      (c :: q.1, q.2)
    else ([], c :: rest)

/-- Fuel-indexed scanner for `re.findall(r"-?\d+", s)` (`signed = true`) and
`re.findall(r"\d+", s)` (`signed = false`): leftmost, non-overlapping, greedy
digit runs, optionally signed.  The fuel only bounds the recursion; a start
fuel exceeding the list length is never exhausted. -/
def findTokensF : Nat → Bool → List Char → List (List Char)
  | 0, _, _ => []
  | _ + 1, _, [] => []
  | fuel + 1, signed, c :: rest =>
    if signed && c = '-' && (match rest with | d :: _ => isDigitCh d | [] => false) then
      let p := grabWhile isDigitCh rest
      ('-' :: p.1) :: findTokensF fuel signed p.2
    else if isDigitCh c then
      let p := grabWhile isDigitCh rest
      (c :: p.1) :: findTokensF fuel signed p.2
    else findTokensF fuel signed rest

/-- All integer tokens of a string, in order of appearance. -/
def findTokens (signed : Bool) (cs : List Char) : List (List Char) :=
  findTokensF (cs.length + 1) signed cs

/-- Numeric value of a digit token, as computed by Python `int`. -/
def tokenToNat (ds : List Char) : Nat := ds.foldl (fun a c => a * 10 + (c.toNat - 48)) 0

/-- Numeric value of an optionally `-`-signed digit token. -/
def tokenToInt : List Char → Int
  | '-' :: ds => -(tokenToNat ds : Int)
  | ds => (tokenToNat ds : Int)

/-- Embedding of `_is_prime`'s trial-division loop
`while f * f <= n: if n % f == 0: return False; f += step; step = 6 - step`.
The fuel argument only bounds the iteration count; `_is_prime` supplies `n`,
which is proved sufficient below. -/
def wheelLoop : Nat → Nat → Nat → Nat → Bool
  | 0, _, _, _ => true
  | fuel + 1, n, f, step =>
    if f * f ≤ n then
      if n % f = 0 then false
      else wheelLoop fuel n (f + step) (6 - step)
    else true

/-- Embedding of `engineer._is_prime`: trial division by 2, 3 and then the
6k±1 wheel starting at 5. -/
def _is_prime (n : Nat) : Bool :=
  if n < 2 then false
  else if n = 2 ∨ n = 3 then true
  else if n % 2 = 0 ∨ n % 3 = 0 then false
  else wheelLoop n n 5 2

/-- Embedding of `engineer._first_n_primes`'s loop
`while len(primes) < n: if _is_prime(x): primes.append(x); x += 1`,
with `need = n - len(primes)`.  The fuel bounds the number of candidates
scanned; `_first_n_primes` supplies `2 ^ n`, proved sufficient below. -/
def firstPrimesAux : Nat → Nat → Nat → List Nat
  | _, 0, _ => []
  | 0, _ + 1, _ => []
  | fuel + 1, need + 1, x =>
    if _is_prime x then x :: firstPrimesAux fuel need (x + 1)
    else firstPrimesAux fuel (need + 1) (x + 1)

/-- Embedding of `engineer._first_n_primes`. -/
def _first_n_primes (n : Nat) : List Nat := firstPrimesAux (2 ^ n) n 2

/-! ### Correctness of the prime helpers -/

/-- A `false` answer of the wheel loop exhibits a divisor in the scanned range. -/
lemma wheelLoop_false (fuel n f step : Nat) (h : wheelLoop fuel n f step = false) :
    ∃ d, f ≤ d ∧ d * d ≤ n ∧ n % d = 0 := by
  induction fuel generalizing f step with
  | zero => simp [wheelLoop] at h
  | succ fuel ih =>
    rw [wheelLoop] at h
    by_cases hg : f * f ≤ n
    · rw [if_pos hg] at h
      by_cases hmod : n % f = 0
      · exact ⟨f, Nat.le_refl f, hg, hmod⟩
      · rw [if_neg hmod] at h
        obtain ⟨d, hd1, hd2, hd3⟩ := ih (f + step) (6 - step) h
        exact ⟨d, Nat.le_trans (Nat.le_add_right f step) hd1, hd2, hd3⟩
    · rw [if_neg hg] at h
      exact absurd h (by simp)

/-- A `true` answer of the wheel loop rules out every divisor coprime to 6 in the
range still to be scanned, provided the fuel dominates the remaining range and
the `(f, step)` pair satisfies the wheel invariant. -/
lemma wheelLoop_true (fuel n f step : Nat) (hfuel : n < fuel + f)
    (hstep : (step = 2 ∧ f % 6 = 5) ∨ (step = 4 ∧ f % 6 = 1))
    (h : wheelLoop fuel n f step = true) :
    ∀ d, f ≤ d → d * d ≤ n → (d % 6 = 1 ∨ d % 6 = 5) → n % d ≠ 0 := by
  induction fuel generalizing f step with
  | zero =>
    intro d hfd hdd _ _
    have hd1 : 1 ≤ d := by rcases hstep with ⟨_, hm⟩ | ⟨_, hm⟩ <;> omega
    have hle : d ≤ d * d := Nat.le_mul_of_pos_left d (by omega)
    omega
  | succ fuel ih =>
    rw [wheelLoop] at h
    by_cases hg : f * f ≤ n
    · rw [if_pos hg] at h
      by_cases hmod : n % f = 0
      · rw [if_pos hmod] at h; cases h
      · rw [if_neg hmod] at h
        intro d hfd hdd hd6
        by_cases hdf : d = f
        · subst hdf; exact hmod
        · have hdge : f + step ≤ d := by
            rcases hstep with ⟨hs, hm⟩ | ⟨hs, hm⟩ <;> rcases hd6 with h6 | h6 <;> omega
          have hstep' : (6 - step = 2 ∧ (f + step) % 6 = 5) ∨ (6 - step = 4 ∧ (f + step) % 6 = 1) := by
            rcases hstep with ⟨hs, hm⟩ | ⟨hs, hm⟩ <;> [right; left] <;> constructor <;> omega
          exact ih (f + step) (6 - step) (by omega) hstep' h d hdge hdd hd6
    · intro d hfd hdd hd6
      have : f ≤ d → f * f ≤ d * d := fun hle => Nat.mul_le_mul hle hle
      omega

/-- The embedded `_is_prime` decides primality. -/
lemma isPrime_iff (n : Nat) : _is_prime n = true ↔ Nat.Prime n := by
  unfold _is_prime
  by_cases h2 : n < 2
  · rw [if_pos h2]
    simp only [Bool.false_eq_true, false_iff]
    intro hp; have := hp.two_le; omega
  · rw [if_neg h2]
    by_cases h23 : n = 2 ∨ n = 3
    · rw [if_pos h23]
      rcases h23 with rfl | rfl
      · simpa using Nat.prime_two
      · simpa using Nat.prime_three
    · rw [if_neg h23]
      by_cases hdvd : n % 2 = 0 ∨ n % 3 = 0
      · rw [if_pos hdvd]
        simp only [Bool.false_eq_true, false_iff]
        intro hp
        rcases hdvd with hd | hd
        · rcases hp.eq_one_or_self_of_dvd 2 (Nat.dvd_of_mod_eq_zero hd) with h | h <;> omega
        · rcases hp.eq_one_or_self_of_dvd 3 (Nat.dvd_of_mod_eq_zero hd) with h | h <;> omega
      · rw [if_neg hdvd]
        push_neg at h23 hdvd
        have hn5 : 5 ≤ n := by omega
        constructor
        · intro hloop
          by_contra hnp
          have hm := Nat.minFac_prime (show n ≠ 1 by omega)
          have hmd : n.minFac ∣ n := Nat.minFac_dvd n
          have hmsq : n.minFac * n.minFac ≤ n := by
            have := Nat.minFac_sq_le_self (show 0 < n by omega) hnp
            rwa [pow_two] at this
          have hm2 : n.minFac ≠ 2 := by
            intro he; rw [he] at hmd
            exact hdvd.1 (Nat.mod_eq_zero_of_dvd hmd)
          have hm3 : n.minFac ≠ 3 := by
            intro he; rw [he] at hmd
            exact hdvd.2 (Nat.mod_eq_zero_of_dvd hmd)
          have hmo2 : n.minFac % 2 ≠ 0 := by
            intro he
            rcases hm.eq_one_or_self_of_dvd 2 (Nat.dvd_of_mod_eq_zero he) with h | h <;> omega
          have hmo3 : n.minFac % 3 ≠ 0 := by
            intro he
            rcases hm.eq_one_or_self_of_dvd 3 (Nat.dvd_of_mod_eq_zero he) with h | h <;> omega
          have hm5 : 5 ≤ n.minFac := by have := hm.two_le; omega
          have h6 : n.minFac % 6 = 1 ∨ n.minFac % 6 = 5 := by omega
          exact wheelLoop_true n n 5 2 (by omega) (Or.inl ⟨rfl, rfl⟩) hloop n.minFac hm5 hmsq h6
            (Nat.mod_eq_zero_of_dvd hmd)
        · intro hp
          by_contra hfalse
          have hf : wheelLoop n n 5 2 = false := by
            revert hfalse; cases wheelLoop n n 5 2 <;> simp
          obtain ⟨d, hd5, hdd, hdm⟩ := wheelLoop_false n n 5 2 hf
          rcases hp.eq_one_or_self_of_dvd d (Nat.dvd_of_mod_eq_zero hdm) with h | h
          · omega
          · subst h
            have : d ≤ 1 := Nat.le_of_mul_le_mul_left (by simpa using hdd) (by omega)
            omega

/-- Unfolding equation for the recursive case of `firstPrimesAux`. -/
lemma firstPrimesAux_succ (fuel need x : Nat) :
    firstPrimesAux (fuel + 1) (need + 1) x =
      if _is_prime x then x :: firstPrimesAux fuel need (x + 1)
      else firstPrimesAux fuel (need + 1) (x + 1) := rfl

/-- When the fuel window `[x, x + fuel)` is known to contain at least `need`
primes, `firstPrimesAux` returns exactly the next `need` primes (in terms of
Mathlib's `Nat.nth Nat.Prime`). -/
lemma firstPrimesAux_eq (fuel : Nat) : ∀ need x : Nat,
    need + Nat.count Nat.Prime x ≤ Nat.count Nat.Prime (x + fuel) →
    firstPrimesAux fuel need x
      = (List.range need).map (fun i => Nat.nth Nat.Prime (Nat.count Nat.Prime x + i)) := by
  induction fuel with
  | zero =>
    intro need x h
    have hz : need = 0 := by simpa using h
    subst hz; simp [firstPrimesAux]
  | succ fuel ih =>
    intro need x h
    match need with
    | 0 => simp [firstPrimesAux]
    | need + 1 =>
      rw [firstPrimesAux_succ]
      by_cases hpx : _is_prime x = true
      · rw [if_pos hpx]
        have hprime : Nat.Prime x := (isPrime_iff x).1 hpx
        have hcount : Nat.count Nat.Prime (x + 1) = Nat.count Nat.Prime x + 1 := by
          rw [Nat.count_succ, if_pos hprime]
        have hshift : x + 1 + fuel = x + (fuel + 1) := by omega
        have hrec := ih need (x + 1) (by rw [hcount, hshift]; omega)
        rw [hrec, List.range_succ_eq_map, List.map_cons, List.map_map]
        congr 1
        · rw [Nat.add_zero, Nat.nth_count hprime]
        · refine List.map_congr_left (fun a _ => ?_)
          simp only [Function.comp_apply]
          congr 1
          omega
      · rw [if_neg hpx]
        have hnp : ¬ Nat.Prime x := fun hc => hpx ((isPrime_iff x).2 hc)
        have hcount : Nat.count Nat.Prime (x + 1) = Nat.count Nat.Prime x := by
          rw [Nat.count_succ, if_neg hnp, Nat.add_zero]
        have hshift : x + 1 + fuel = x + (fuel + 1) := by omega
        have hrec := ih (need + 1) (x + 1) (by rw [hcount, hshift]; omega)
        rw [hrec, hcount]

/-- No prime lies below 2. -/
lemma count_prime_two : Nat.count Nat.Prime 2 = 0 := by
  have h1 : Nat.count Nat.Prime 1 = 0 := by
    rw [show (1 : ℕ) = 0 + 1 from rfl, Nat.count_succ, Nat.count_zero, if_neg Nat.not_prime_zero]
  rw [show (2 : ℕ) = 1 + 1 from rfl, Nat.count_succ, h1, if_neg Nat.not_prime_one]

/-- Every prime is positive, stated for the `n`-th prime. -/
lemma nth_prime_pos (k : Nat) : 0 < Nat.nth Nat.Prime k :=
  (Nat.nth_mem_of_infinite Nat.infinite_setOf_prime k).pos

/-- Chebyshev-Bertrand bound: the `k`-th prime is at most `2 ^ (k + 1)`. -/
lemma nth_prime_le_pow (k : Nat) : Nat.nth Nat.Prime k ≤ 2 ^ (k + 1) := by
  induction k with
  | zero =>
    have h := Nat.nth_count Nat.prime_two
    rw [count_prime_two] at h
    rw [h]; norm_num
  | succ k ih =>
    obtain ⟨q, hq, hlt, hle⟩ :=
      Nat.exists_prime_lt_and_le_two_mul (Nat.nth Nat.Prime k) (nth_prime_pos k).ne'
    have h1 : k < Nat.count Nat.Prime q :=
      (Nat.lt_nth_iff_count_lt Nat.infinite_setOf_prime).2 hlt
    have h2 : Nat.count Nat.Prime (q + 1) = Nat.count Nat.Prime q + 1 := by
      rw [Nat.count_succ, if_pos hq]
    have h3 : k + 1 < Nat.count Nat.Prime (q + 1) := by omega
    have h4 : Nat.nth Nat.Prime (k + 1) < q + 1 :=
      (Nat.lt_nth_iff_count_lt Nat.infinite_setOf_prime).1 h3
    have h5 : 2 * Nat.nth Nat.Prime k ≤ 2 * 2 ^ (k + 1) := Nat.mul_le_mul_left 2 ih
    have h6 : 2 * 2 ^ (k + 1) = 2 ^ (k + 1 + 1) := by ring
    omega

/-- Faithfulness certificate for the fuel choice in `_first_n_primes`: it
computes exactly the first `n` primes, i.e. the value of the source's
unbounded search loop. -/
theorem first_n_primes_eq (n : Nat) :
    _first_n_primes n = (List.range n).map (Nat.nth Nat.Prime) := by
  unfold _first_n_primes
  have hsuff : n + Nat.count Nat.Prime 2 ≤ Nat.count Nat.Prime (2 + 2 ^ n) := by
    rw [count_prime_two, Nat.add_zero]
    rcases Nat.eq_zero_or_pos n with rfl | hn
    · simp
    · have hb : Nat.nth Nat.Prime (n - 1) < 2 + 2 ^ n := by
        have h1 := nth_prime_le_pow (n - 1)
        have h2 : 2 ^ (n - 1 + 1) = 2 ^ n := by congr 1; omega
        omega
      have hcc : n - 1 < Nat.count Nat.Prime (2 + 2 ^ n) :=
        (Nat.lt_nth_iff_count_lt Nat.infinite_setOf_prime).2 hb
      omega
  have h := firstPrimesAux_eq (2 ^ n) n 2 hsuff
  rw [h, count_prime_two]
  simp

/-! ### Embedding of `Engineer.extract_code` -/

/-- The fence delimiter of Markdown code blocks. -/
def fenceTag : List Char := chs "```"

/-- Opening delimiter of a Python-tagged fenced block. -/
def openPyTag : List Char := chs "```python\n"

/-- Opening delimiter of an untagged fenced block. -/
def openPlainTag : List Char := chs "```\n"

/-- Split a list at the first occurrence of `pat`: returns the part strictly
before the occurrence and the part strictly after it, or `none` when `pat`
does not occur.  (The leftmost-match rule of `re`.) -/
def splitAtFirst (pat : List Char) : List Char → Option (List Char × List Char)
  | [] => if pat.isEmpty then some ([], []) else none
  | c :: rest =>
    if isPrefixCh pat (c :: rest) then some ([], (c :: rest).drop pat.length)
    else
      match splitAtFirst pat rest with
      | some (pre, post) => some (c :: pre, post)
      | none => none

/-- Fuel-indexed model of `re.findall(openTag + "(.*?)```", s, re.DOTALL)`:
leftmost non-overlapping matches, each closed by the earliest following
fence (the lazy group). -/
def findFencedF : Nat → List Char → List Char → List (List Char)
  | 0, _, _ => []
  | fuel + 1, openTag, cs =>
    match splitAtFirst openTag cs with
    | none => []
    | some (_, afterOpen) =>
      match splitAtFirst fenceTag afterOpen with
      | none => []
      | some (body, afterClose) => body :: findFencedF fuel openTag afterClose

/-- All bodies of fenced blocks opened by `openTag`, in order. -/
def findFenced (openTag cs : List Char) : List (List Char) :=
  findFencedF (cs.length + 1) openTag cs

/-- Model of Python `max(matches, key=len)`: the first candidate of maximal
length (later candidates replace the current best only when strictly longer). -/
def maxByLen : List (List Char) → List Char
  | [] => []
  | m :: ms => ms.foldl (fun best x => if best.length < x.length then x else best) m

/-- Model of `solution.split("\n")`. -/
def splitLines : List Char → List (List Char)
  | [] => [[]]
  | c :: rest =>
    if c = '\n' then [] :: splitLines rest
    else
      match splitLines rest with
      | l :: ls => (c :: l) :: ls
      | [] => [[c]]

/-- Model of `"\n".join(lines)`. -/
def joinLines : List (List Char) → List Char
  | [] => []
  | [l] => l
  | l :: ls => l ++ '\n' :: joinLines ls

/-- The line starters that switch the heuristic scanner into code mode
(`stripped.startswith(("import ", "from ", "def ", "class "))`). -/
def starterKws : List (List Char) :=
  [chs "import ", chs "from ", chs "def ", chs "class "]

/-- The statement keywords that keep the heuristic scanner in code mode. -/
def breakKws : List (List Char) :=
  [chs "#", chs "import", chs "from", chs "def", chs "class", chs "if", chs "for",
   chs "while", chs "return", chs "print", chs "try", chs "except", chs "elif", chs "else"]

/-- Model of the line-scanning loop of `extract_code`: collect lines once a
starter keyword is seen, stopping (and discarding the offending line and the
rest) at the first non-empty line that neither starts with a recognized
keyword nor ends with a colon. -/
def scanLines : List (List Char) → Bool → List (List Char)
  | [], _ => []
  | line :: rest, inCode =>
    let stripped := pyStrip line
    let inCode' := inCode || starterKws.any (fun k => isPrefixCh k stripped)
    if inCode' then
      if !stripped.isEmpty && !(breakKws.any fun k => isPrefixCh k stripped) then
        if endsColon stripped then line :: scanLines rest inCode'
        else []
      else line :: scanLines rest inCode'
    else scanLines rest inCode'

/-- Embedding of `Engineer.extract_code`: tagged fenced blocks first, then
untagged fenced blocks containing a code token, then the heuristic line scan. -/
def extract_code (solution : List Char) : Option (List Char) :=
  let m1 := findFenced openPyTag solution
  if !m1.isEmpty then some (maxByLen m1)
  else
    let m2 := findFenced openPlainTag solution
    let code2 := maxByLen m2
    if !m2.isEmpty &&
        (containsSub (chs "def ") code2 || containsSub (chs "import ") code2 ||
          containsSub (chs "print") code2) then
      some code2
    else
      let codeLines := scanLines (splitLines solution) false
      if !codeLines.isEmpty then some (joinLines codeLines) else none

/-! ### Embedding of the entry-point synthesis in `Engineer.test_solution` -/

/-- Attempt to match the regex `def\s+(\w+)\s*\([^)]*\):` at the head of the
list; on success return the captured name and the rest after the whole match.
The character classes `\w`, `\s`, `(` and `)` are disjoint, so the greedy
matching below is exactly the regex's behaviour. -/
def matchDefAt : List Char → Option (List Char × List Char)
  | 'd' :: 'e' :: 'f' :: rest =>
    let sp1 := grabWhile isSpaceCh rest
    if sp1.1.isEmpty then none
    else
      let nm := grabWhile isWordCh sp1.2
      if nm.1.isEmpty then none
      else
        let sp2 := grabWhile isSpaceCh nm.2
        match sp2.2 with
        | '(' :: r4 =>
          let args := grabWhile (fun c => !(c = ')')) r4
          match args.2 with
          | ')' :: ':' :: r6 => some (nm.1, r6)
          | _ => none
        | _ => none
  | _ => none

/-- Fuel-indexed model of `re.findall(r"def\s+(\w+)\s*\([^)]*\):", code)`:
leftmost, non-overlapping; on failure the scan advances one character. -/
def findDefsF : Nat → List Char → List (List Char)
  | 0, _ => []
  | _ + 1, [] => []
  | fuel + 1, c :: rest =>
    match matchDefAt (c :: rest) with
    | some (nm, after) => nm :: findDefsF fuel after
    | none => findDefsF fuel rest

/-- All function names defined by `def` in the code, in order. -/
def findDefs (cs : List Char) : List (List Char) :=
  findDefsF (cs.length + 1) cs

/-- The name fragments preferred when choosing the function to invoke. -/
def mainKws : List (List Char) :=
  [chs "main", chs "find", chs "get", chs "calculate", chs "solve"]

/-- Choice of the function the synthesized epilogue will call: the first whose
lowercased name contains a preferred fragment, else the last-defined one. -/
def selectMainFunc (functions : List (List Char)) : Option (List Char) :=
  match functions.find? (fun f => mainKws.any fun k => containsSub k (pyLower f)) with
  | some f => some f
  | none => functions.getLast?

/-- The invocation epilogue appended to the code:
`\n\nif __name__ == "__main__":\n    result = fn(arg)\n    print(result)\n`. -/
def epilogue (fn arg : List Char) : List Char :=
  chs "\n\nif __name__ == \"__main__\":\n    result = " ++ fn ++ chs "(" ++ arg ++
    chs ")\n    print(result)\n"

/-- Embedding of the entry-point-synthesis block of `Engineer.test_solution`
(lines 118-155 of `engineer.py`): leave code containing `__main__` or `print(`
alone; otherwise select a function and append an epilogue whose argument is
the goal's first integer token (goal contains `prime` and some integer),
the constant 40 (goal contains `prime` and `first` but no integer), or
nothing. -/
def ensureEntryPoint (code goal : List Char) : List Char :=
  let hasMain := containsSub (chs "__main__") code || containsSub (chs "print(") code
  if hasMain then code
  else
    match selectMainFunc (findDefs code) with
    | none => code
    | some fn =>
      let gl := pyLower goal
      let numbers := findTokens false gl
      if containsSub (chs "prime") gl && !numbers.isEmpty then
        code ++ epilogue fn (numbers.headD [])
      else if containsSub (chs "prime") gl && containsSub (chs "first") gl then
        code ++ epilogue fn (chs "40")
      else code ++ epilogue fn []

/-! ### Embedding of `Engineer.validate_output` -/

/-- Result record of `validate_output`; the Python float confidences (only ever
assigned fixed literals, never computed with) are modelled as rationals. -/
structure Validation where
  meets_goal : Bool
  confidence : ℚ
  notes : List String
  deriving DecidableEq, Repr

/-- The fixed list `first_primes` used by the heuristic prime check. -/
def firstPrimesConst : List Int := [2, 3, 5, 7, 11, 13, 17, 19]

/-- Embedding of `Engineer.validate_output`.  In the Python source, `target_n`
is `None` when the goal has no integer token; `None` and `0` are both falsy in
`if "first" in goal_lower and target_n:`, so the two cases are merged into the
value 0 here. -/
def validate_output (output goal : List Char) : Validation :=
  if isBlankPy output then ⟨false, 0, ["No output produced"]⟩
  else
    let goal_lower := pyLower goal
    if containsSub (chs "prime") goal_lower then
      let numbers : List Int := (findTokens true output).map tokenToInt
      if numbers.isEmpty then ⟨false, 0, ["No numbers detected in output"]⟩
      else
        let target_n : Nat :=
          match (findTokens false goal_lower).head? with
          | some t => tokenToNat t
          | none => 0
        if containsSub (chs "first") goal_lower && !(target_n == 0) then
          let expected := _first_n_primes target_n
          let candidate := numbers.take target_n
          if candidate = expected.map Int.ofNat then
            ⟨true, mkRat 98 100, ["Output matches first " ++ toString target_n ++ " primes exactly"]⟩
          else
            ⟨false, mkRat 2 10,
              ["First " ++ toString target_n ++ " numbers do not match expected prime sequence"]⟩
        else
          if (firstPrimesConst.take 5).all (fun p => p ∈ numbers.take (max 10 numbers.length)) then
            ⟨true, mkRat 8 10, ["Output contains several correct small primes"]⟩
          else ⟨false, mkRat 3 10, ["Numbers found but may not all be primes"]⟩
    else if containsSub (chs "fibonacci") goal_lower then
      let numbers : List Int := (findTokens true output).map tokenToInt
      if 5 ≤ numbers.length then
        if numbers.take 5 = [0, 1, 1, 2, 3] ∨ numbers.take 5 = [1, 1, 2, 3, 5] then
          ⟨true, mkRat 9 10, ["Output begins with a valid Fibonacci prefix"]⟩
        else ⟨false, mkRat 4 10, ["Numbers present but Fibonacci pattern unclear"]⟩
      else ⟨false, 0, ["Too few numbers found for Fibonacci validation"]⟩
    else
      if 10 < (pyStrip output).length then ⟨true, mkRat 5 10, ["Produced nontrivial output"]⟩
      else ⟨false, 0, []⟩

/-! ### Embedding of `Engineer.test_solution` -/

/-- The result dictionary built by `test_solution`; `execution_time` (a Python
float measured from the clock) is modelled as an arbitrary rational carried by
the run outcome. -/
structure TestResult where
  success : Bool
  output : Option String
  error : Option String
  issues : List String
  execution_time : Option ℚ
  deriving DecidableEq, Repr

/-- Outcome of the effectful part of a `test_solution` call, from the point
where the temporary file has been created.  `writeRaises` is an exception
from `f.write(code)` (the file exists but `temp_file` was never assigned);
`runRaises` is a non-timeout exception from `subprocess.run`; `timedOut` is
`subprocess.TimeoutExpired`; `completed rc out err t` is a finished child
process with exit code `rc`, captured streams and elapsed wall-clock time. -/
inductive RunOutcome where
  | writeRaises (msg exName : String)
  | runRaises (msg exName : String)
  | timedOut
  | completed (returncode : Int) (stdout stderr : String) (elapsed : ℚ)
  deriving DecidableEq, Repr

/-- Observable state when `test_solution` returns: the returned result, the
updated `self.test_results` history, and whether the temporary file was
created and whether it still exists. -/
structure RunRecord where
  result : TestResult
  test_results : List TestResult
  tempFileCreated : Bool
  tempFileRemains : Bool
  deriving DecidableEq, Repr

/-- Embedding of `Engineer.test_solution`: extract code, synthesize an entry
point, then follow the try/except/finally protocol for the given run outcome.
On `writeRaises` the `finally` block skips `os.unlink` because `temp_file` is
still `None`, so the created file survives the call. -/
def test_solution (history : List TestResult) (goal solution : List Char)
    (oc : RunOutcome) : RunRecord :=
  match extract_code solution with
  | none =>
    { result := ⟨false, none, some "No executable code found in solution",
        ["Solution must include Python code"], none⟩,
      test_results := history, tempFileCreated := false, tempFileRemains := false }
  | some code =>
    let _finalCode := ensureEntryPoint code goal
    let result : TestResult :=
      match oc with
      | .writeRaises msg exName =>
        ⟨false, none, some msg, ["Unexpected error: " ++ exName], none⟩
      | .runRaises msg exName =>
        ⟨false, none, some msg, ["Unexpected error: " ++ exName], none⟩
      | .timedOut =>
        ⟨false, none, some "Code execution timed out", ["TimeoutExpired"], none⟩
      | .completed rc out err t =>
        if rc = 0 then ⟨true, some out, none, [], some t⟩
        else ⟨false, none, some err, ["Code execution failed"], some t⟩
    { result := result,
      test_results := history ++ [result],
      tempFileCreated := true,
      tempFileRemains := match oc with | .writeRaises _ _ => true | _ => false }

/-! ### Helper lemmas about the scanners -/

/-- Unfolding equation for the recursive case of the token scanner. -/
lemma findTokensF_cons (fuel : Nat) (signed : Bool) (c : Char) (rest : List Char) :
    findTokensF (fuel + 1) signed (c :: rest) =
      if signed && c = '-' && (match rest with | d :: _ => isDigitCh d | [] => false) then
        ('-' :: (grabWhile isDigitCh rest).1) :: findTokensF fuel signed (grabWhile isDigitCh rest).2
      else if isDigitCh c then
        (c :: (grabWhile isDigitCh rest).1) :: findTokensF fuel signed (grabWhile isDigitCh rest).2
      else findTokensF fuel signed rest := rfl

/-- The token scanner finds nothing in digit-free text. -/
lemma findTokensF_nil (fuel : Nat) (signed : Bool) :
    ∀ cs : List Char, (∀ c ∈ cs, isDigitCh c = false) → findTokensF fuel signed cs = [] := by
  induction fuel with
  | zero => intro cs _; rfl
  | succ fuel ih =>
    intro cs h
    match cs with
    | [] => rfl
    | c :: rest =>
      have hc : isDigitCh c = false := h c (by simp)
      have hrest : ∀ x ∈ rest, isDigitCh x = false := fun x hx => h x (by simp [hx])
      rw [findTokensF_cons]
      cases rest with
      | nil =>
        simp only [Bool.and_false, Bool.false_eq_true, if_false]
        rw [if_neg (by simp [hc])]
        exact ih [] (by simp)
      | cons d rest' =>
        have hd : isDigitCh d = false := hrest d (by simp)
        simp only [hd, Bool.and_false, Bool.false_eq_true, if_false]
        rw [if_neg (by simp [hc])]
        exact ih (d :: rest') hrest

/-- A nonempty token list exhibits a digit in the input. -/
lemma findTokens_digit (signed : Bool) (cs : List Char) (h : findTokens signed cs ≠ []) :
    ∃ c ∈ cs, isDigitCh c = true := by
  by_contra hno
  push_neg at hno
  exact h (findTokensF_nil (cs.length + 1) signed cs
    (fun c hc => by have := hno c hc; revert this; cases isDigitCh c <;> simp))

/-- If stripping leaves nothing, every character was whitespace. -/
lemma pyStrip_nil_all_space (cs : List Char) (h : pyStrip cs = []) :
    ∀ c ∈ cs, isSpaceCh c = true := by
  unfold pyStrip at h
  rw [List.reverse_eq_nil_iff, List.dropWhile_eq_nil_iff] at h
  intro c hc
  rw [← List.takeWhile_append_dropWhile isSpaceCh cs] at hc
  rcases List.mem_append.1 hc with hmem | hmem
  · exact List.mem_takeWhile_imp hmem
  · exact h c (List.mem_reverse.2 hmem)

/-- Text containing a digit is not blank in the sense of
`not output or not output.strip()`. -/
lemma isBlankPy_false_of_digit (cs : List Char) (h : ∃ c ∈ cs, isDigitCh c = true) :
    isBlankPy cs = false := by
  obtain ⟨c, hc, hdig⟩ := h
  have hne : cs ≠ [] := by intro he; subst he; simp at hc
  have hstrip : pyStrip cs ≠ [] := by
    intro he
    have hsp := pyStrip_nil_all_space cs he c hc
    unfold isDigitCh at hdig
    unfold isSpaceCh at hsp
    simp only [Bool.and_eq_true, decide_eq_true_eq, Bool.or_eq_true] at hdig hsp
    omega
  simp [isBlankPy, hne, hstrip]

/-! ### Claim theorems about `validate_output` -/

/-- C9: for every goal, an empty or whitespace-only output validates to
`meets_goal = false`, confidence 0.0 and the single note "No output produced". -/
theorem validate_output_blank (output goal : List Char) (h : isBlankPy output = true) :
    validate_output output goal = ⟨false, 0, ["No output produced"]⟩ := by
  unfold validate_output
  rw [if_pos h]

/-- Witness for C9 at a whitespace-only output and an arbitrary goal. -/
theorem validate_output_blank_witness :
    validate_output (chs " \t ") (chs "count primes") = ⟨false, 0, ["No output produced"]⟩ :=
  validate_output_blank (chs " \t ") (chs "count primes") (by decide)

/-- C2 (amended to a positive target, see the counterexample below):
when the lowercased goal contains "prime" and "first" and its first integer
token has positive value N, and the output contains at least one integer
token, validation succeeds with confidence 0.98 exactly when the first N
extracted integers are the true first N primes (`Nat.nth Nat.Prime`), and
otherwise fails with confidence 0.2. -/
theorem validate_prime_first_exact (output goal tok : List Char) (N : Nat)
    (hp : containsSub (chs "prime") (pyLower goal) = true)
    (hf : containsSub (chs "first") (pyLower goal) = true)
    (htok : (findTokens false (pyLower goal)).head? = some tok)
    (hN : tokenToNat tok = N) (hNpos : 1 ≤ N)
    (hnums : (findTokens true output).map tokenToInt ≠ []) :
    validate_output output goal =
      if ((findTokens true output).map tokenToInt).take N
          = (List.range N).map (fun i => Int.ofNat (Nat.nth Nat.Prime i))
      then ⟨true, mkRat 98 100, ["Output matches first " ++ toString N ++ " primes exactly"]⟩
      else ⟨false, mkRat 2 10,
        ["First " ++ toString N ++ " numbers do not match expected prime sequence"]⟩ := by
  have hdig : ∃ c ∈ output, isDigitCh c = true :=
    findTokens_digit true output (fun he => hnums (by simp [he]))
  have hblank : isBlankPy output = false := isBlankPy_false_of_digit output hdig
  have hne : ((findTokens true output).map tokenToInt).isEmpty = false := by
    revert hnums; cases (findTokens true output).map tokenToInt <;> simp
  have hNne : (N == 0) = false := by
    cases N with
    | zero => exact absurd hNpos (by omega)
    | succ n => rfl
  unfold validate_output
  rw [if_neg (by simp [hblank]), if_pos hp, if_neg (by simp [hne]), htok]
  simp only [hN, hNne, hf, Bool.not_false, Bool.and_true, if_pos]
  rw [first_n_primes_eq, List.map_map]
  rfl

/-- Witness for C2 at the spec's own example goal and output. -/
theorem validate_prime_first_exact_witness :
    validate_output (chs "[2, 3, 5, 7, 11, 13, 17, 19, 23, 29]")
        (chs "write a function to find the first 10 prime numbers") =
      if ((findTokens true (chs "[2, 3, 5, 7, 11, 13, 17, 19, 23, 29]")).map tokenToInt).take 10
          = (List.range 10).map (fun i => Int.ofNat (Nat.nth Nat.Prime i))
      then ⟨true, mkRat 98 100, ["Output matches first " ++ toString 10 ++ " primes exactly"]⟩
      else ⟨false, mkRat 2 10,
        ["First " ++ toString 10 ++ " numbers do not match expected prime sequence"]⟩ :=
  validate_prime_first_exact (chs "[2, 3, 5, 7, 11, 13, 17, 19, 23, 29]")
    (chs "write a function to find the first 10 prime numbers") (chs "10") 10
    (by decide) (by decide) (by decide) (by decide) (by decide) (by decide)

/-- Counterexample to C2 as frozen: with goal "find the first 0 prime numbers"
(which contains "prime", "first" and the literal integer 0) and output "7"
(one extracted integer), the first 0 extracted integers do equal the true
sequence of the first 0 primes, yet `validate_output` takes the heuristic
branch (Python's `if "first" in goal_lower and target_n:` treats 0 as falsy)
and returns `meets_goal = false` with confidence 0.3, not 0.98. -/
theorem validate_prime_zero_target_counterexample :
    (((findTokens true (chs "7")).map tokenToInt).take 0
        = (List.range 0).map (fun i => Int.ofNat (Nat.nth Nat.Prime i)))
    ∧ (findTokens false (pyLower (chs "find the first 0 prime numbers"))).head?
        = some (chs "0")
    ∧ validate_output (chs "7") (chs "find the first 0 prime numbers")
        = ⟨false, mkRat 3 10, ["Numbers found but may not all be primes"]⟩ :=
  ⟨rfl, by decide, by decide⟩

/-- C8 (amended to non-blank outputs, see the counterexample below): when the
lowercased goal contains "fibonacci" but not "prime" and the output is not
blank, validation passes with confidence 0.9 exactly when at least five
integers are extracted and the first five are `[0,1,1,2,3]` or `[1,1,2,3,5]`;
with five or more integers and neither prefix it fails with confidence 0.4;
with fewer than five it fails with the "too few numbers" note. -/
theorem validate_fibonacci_cases (output goal : List Char)
    (hf : containsSub (chs "fibonacci") (pyLower goal) = true)
    (hp : containsSub (chs "prime") (pyLower goal) = false)
    (hnb : isBlankPy output = false) :
    validate_output output goal =
      if 5 ≤ ((findTokens true output).map tokenToInt).length then
        if ((findTokens true output).map tokenToInt).take 5 = [0, 1, 1, 2, 3]
            ∨ ((findTokens true output).map tokenToInt).take 5 = [1, 1, 2, 3, 5] then
          ⟨true, mkRat 9 10, ["Output begins with a valid Fibonacci prefix"]⟩
        else ⟨false, mkRat 4 10, ["Numbers present but Fibonacci pattern unclear"]⟩
      else ⟨false, 0, ["Too few numbers found for Fibonacci validation"]⟩ := by
  unfold validate_output
  rw [if_neg (by simp [hnb]), if_neg (by simp [hp]), if_pos hf]

/-- Witness for C8 at the spec's zero-indexed Fibonacci example. -/
theorem validate_fibonacci_cases_witness :
    validate_output (chs "0 1 1 2 3 5") (chs "fibonacci sequence") =
      if 5 ≤ ((findTokens true (chs "0 1 1 2 3 5")).map tokenToInt).length then
        if ((findTokens true (chs "0 1 1 2 3 5")).map tokenToInt).take 5 = [0, 1, 1, 2, 3]
            ∨ ((findTokens true (chs "0 1 1 2 3 5")).map tokenToInt).take 5 = [1, 1, 2, 3, 5] then
          ⟨true, mkRat 9 10, ["Output begins with a valid Fibonacci prefix"]⟩
        else ⟨false, mkRat 4 10, ["Numbers present but Fibonacci pattern unclear"]⟩
      else ⟨false, 0, ["Too few numbers found for Fibonacci validation"]⟩ :=
  validate_fibonacci_cases (chs "0 1 1 2 3 5") (chs "fibonacci sequence")
    (by decide) (by decide) (by decide)

/-- Counterexample to C8 as frozen: the claim quantifies over every output,
but for the empty output (zero extracted integers, hence "fewer than 5") the
note is "No output produced", not the "too few numbers" note. -/
theorem validate_fibonacci_blank_counterexample :
    ((findTokens true ([] : List Char)).map tokenToInt).length < 5
    ∧ validate_output [] (chs "fibonacci sequence") = ⟨false, 0, ["No output produced"]⟩
    ∧ "Too few numbers found for Fibonacci validation" ∉
        (validate_output [] (chs "fibonacci sequence")).notes :=
  ⟨by decide, by decide, by decide⟩

/-! ### Claim theorems about `test_solution` -/

/-- C1: on every path (no code found, write exception, run exception, timeout,
zero or nonzero exit), a successful result has its output set and a null
error, and a failed result has its error set. -/
theorem test_result_invariant (history : List TestResult) (goal solution : List Char)
    (oc : RunOutcome) :
    ((test_solution history goal solution oc).result.success = true →
      ((test_solution history goal solution oc).result.output.isSome = true ∧
        (test_solution history goal solution oc).result.error = none))
    ∧ ((test_solution history goal solution oc).result.success = false →
      (test_solution history goal solution oc).result.error.isSome = true) := by
  unfold test_solution
  cases hx : extract_code solution with
  | none => simp
  | some code =>
    cases oc with
    | writeRaises msg exName => simp
    | runRaises msg exName => simp
    | timedOut => simp
    | completed rc out err t =>
      by_cases hrc : rc = 0
      · simp [hrc]
      · simp [hrc]

/-- Witness for C1 on a successful run and on a timeout. -/
theorem test_result_invariant_witness :
    ((test_solution [] (chs "g") (chs "import math")
        (.completed 0 "2\n" "" 1)).result.output.isSome = true ∧
      (test_solution [] (chs "g") (chs "import math")
        (.completed 0 "2\n" "" 1)).result.error = none)
    ∧ (test_solution [] (chs "g") (chs "import math")
        .timedOut).result.error.isSome = true :=
  ⟨(test_result_invariant [] (chs "g") (chs "import math")
      (.completed 0 "2\n" "" 1)).1 (by decide),
   (test_result_invariant [] (chs "g") (chs "import math") .timedOut).2 (by decide)⟩

/-- C3: when code was extracted and the child exceeds the deadline, the result
fails with error "Code execution timed out" and issue "TimeoutExpired". -/
theorem timeout_result (history : List TestResult) (goal solution : List Char)
    (h : extract_code solution ≠ none) :
    (test_solution history goal solution .timedOut).result.success = false
    ∧ (test_solution history goal solution .timedOut).result.error
        = some "Code execution timed out"
    ∧ "TimeoutExpired" ∈ (test_solution history goal solution .timedOut).result.issues := by
  unfold test_solution
  cases hx : extract_code solution with
  | none => exact absurd hx h
  | some code => simp

/-- Witness for C3. -/
theorem timeout_result_witness :
    (test_solution [] (chs "g") (chs "import math") .timedOut).result.success = false
    ∧ (test_solution [] (chs "g") (chs "import math") .timedOut).result.error
        = some "Code execution timed out"
    ∧ "TimeoutExpired" ∈ (test_solution [] (chs "g") (chs "import math")
        .timedOut).result.issues :=
  timeout_result [] (chs "g") (chs "import math") (by decide)

/-- C4 (amended, see the counterexample below): `execution_time` is set exactly
when `subprocess.run` returned (exit code observed, zero or not), in which case
it is the elapsed time; on the timeout and exception paths the assignment
`result["execution_time"] = elapsed` is never reached and the field stays null. -/
theorem execution_time_on_completion_only (history : List TestResult)
    (goal solution : List Char) (oc : RunOutcome) (h : extract_code solution ≠ none) :
    (test_solution history goal solution oc).result.execution_time
      = match oc with
        | .completed _ _ _ t => some t
        | _ => none := by
  unfold test_solution
  cases hx : extract_code solution with
  | none => exact absurd hx h
  | some code =>
    cases oc with
    | writeRaises msg exName => simp
    | runRaises msg exName => simp
    | timedOut => simp
    | completed rc out err t =>
      by_cases hrc : rc = 0
      · simp [hrc]
      · simp [hrc]

/-- Counterexample to C4 as frozen: on a timeout (spawn began, run failed),
the returned `execution_time` is null, not the elapsed wall-clock time. -/
theorem execution_time_timeout_counterexample :
    extract_code (chs "import math") ≠ none
    ∧ (test_solution [] (chs "g") (chs "import math") .timedOut).result.success = false
    ∧ (test_solution [] (chs "g") (chs "import math")
        .timedOut).result.execution_time = none :=
  ⟨by decide, by decide, by decide⟩

/-- Witness for the amended C4 on a nonzero-exit run. -/
theorem execution_time_on_completion_only_witness :
    (test_solution [] (chs "g") (chs "import math")
        (.completed 2 "" "boom" (mkRat 1 2))).result.execution_time = some (mkRat 1 2) :=
  execution_time_on_completion_only [] (chs "g") (chs "import math")
    (.completed 2 "" "boom" (mkRat 1 2)) (by decide)

/-- C5 (amended, see the counterexample below): when code was extracted the
temporary file is always created, and it is removed on every exit path except
an exception raised during `f.write(code)` itself, where `temp_file` was never
assigned and the `finally` block skips the unlink. -/
theorem temp_file_cleanup (history : List TestResult) (goal solution : List Char)
    (oc : RunOutcome) (h : extract_code solution ≠ none) :
    (test_solution history goal solution oc).tempFileCreated = true
    ∧ (test_solution history goal solution oc).tempFileRemains
        = match oc with
          | .writeRaises _ _ => true
          | _ => false := by
  unfold test_solution
  cases hx : extract_code solution with
  | none => exact absurd hx h
  | some code =>
    cases oc with
    | writeRaises msg exName => simp
    | runRaises msg exName => simp
    | timedOut => simp
    | completed rc out err t => simp

/-- Counterexample to C5 as frozen: when the write into the temporary file
raises, the created file still exists when `test_solution` returns. -/
theorem temp_file_write_exception_counterexample :
    extract_code (chs "import math") ≠ none
    ∧ (test_solution [] (chs "g") (chs "import math")
        (.writeRaises "No space left on device" "OSError")).tempFileCreated = true
    ∧ (test_solution [] (chs "g") (chs "import math")
        (.writeRaises "No space left on device" "OSError")).tempFileRemains = true :=
  ⟨by decide, by decide, by decide⟩

/-- Witness for the amended C5 on a timeout run: the file is gone. -/
theorem temp_file_cleanup_witness :
    (test_solution [] (chs "g") (chs "import math") .timedOut).tempFileCreated = true
    ∧ (test_solution [] (chs "g") (chs "import math") .timedOut).tempFileRemains = false :=
  temp_file_cleanup [] (chs "g") (chs "import math") .timedOut (by decide)

/-- A prefix test for a concatenation implies the prefix test for its left part. -/
lemma isPrefixCh_append_left (a b l : List Char) (h : isPrefixCh (a ++ b) l = true) :
    isPrefixCh a l = true := by
  induction a generalizing l with
  | nil => rfl
  | cons x xs ih =>
    cases l with
    | nil => simp [isPrefixCh] at h
    | cons y ys =>
      rw [List.cons_append, isPrefixCh] at h
      rw [isPrefixCh]
      rcases Bool.and_eq_true_iff.1 h with ⟨h1, h2⟩
      rw [h1, ih ys h2]
      rfl

/-- If a pattern extended on the right does not occur, neither does the
extension; contrapositive form used for the fence patterns. -/
lemma containsSub_append_of_not (a b cs : List Char) (h : containsSub a cs = false) :
    containsSub (a ++ b) cs = false := by
  induction cs with
  | nil =>
    rw [containsSub] at h ⊢
    cases hp : isPrefixCh (a ++ b) [] with
    | false => rfl
    | true => rw [isPrefixCh_append_left a b [] hp] at h; cases h
  | cons c rest ih =>
    rw [containsSub, Bool.or_eq_false_iff] at h
    rw [containsSub, Bool.or_eq_false_iff]
    refine ⟨?_, ih h.2⟩
    cases hp : isPrefixCh (a ++ b) (c :: rest) with
    | false => rfl
    | true => rw [isPrefixCh_append_left a b _ hp] at h; exact h.1

/-- When the pattern does not occur, `splitAtFirst` finds nothing. -/
lemma splitAtFirst_none (pat cs : List Char) (h : containsSub pat cs = false) :
    splitAtFirst pat cs = none := by
  induction cs with
  | nil =>
    rw [containsSub] at h
    rw [splitAtFirst, if_neg]
    intro he
    rw [List.isEmpty_iff.1 he] at h
    simp [isPrefixCh] at h
  | cons c rest ih =>
    rw [containsSub, Bool.or_eq_false_iff] at h
    rw [splitAtFirst, if_neg (by simp [h.1]), ih h.2]

/-- When the opening tag does not occur, no fenced block is found. -/
lemma findFencedF_nil (fuel : Nat) (openTag cs : List Char)
    (h : splitAtFirst openTag cs = none) : findFencedF fuel openTag cs = [] := by
  cases fuel with
  | zero => rfl
  | succ fuel => rw [findFencedF, h]

/-- A newline-free line splits to itself. -/
lemma splitLines_no_newline (l : List Char) (h : '\n' ∉ l) : splitLines l = [l] := by
  induction l with
  | nil => rfl
  | cons c rest ih =>
    have hc : ¬ (c = '\n') := fun he => h (by simp [he])
    have hrest : '\n' ∉ rest := fun hm => h (by simp [hm])
    rw [splitLines, if_neg hc, ih hrest]

/-- Splitting after a newline-free first line peels it off. -/
lemma splitLines_append (l t : List Char) (h : '\n' ∉ l) :
    splitLines (l ++ '\n' :: t) = l :: splitLines t := by
  induction l with
  | nil => simp [splitLines]
  | cons c rest ih =>
    have hc : ¬ (c = '\n') := fun he => h (by simp [he])
    have hrest : '\n' ∉ rest := fun hm => h (by simp [hm])
    rw [List.cons_append, splitLines, if_neg hc, ih hrest]

/-- `split` is a left inverse of `join` on newline-free lines. -/
lemma splitLines_joinLines (l0 : List Char) (rest : List (List Char))
    (h : ∀ l ∈ l0 :: rest, '\n' ∉ l) :
    splitLines (joinLines (l0 :: rest)) = l0 :: rest := by
  induction rest generalizing l0 with
  | nil => exact splitLines_no_newline l0 (h l0 (by simp))
  | cons l1 rest ih =>
    rw [show joinLines (l0 :: l1 :: rest) = l0 ++ '\n' :: joinLines (l1 :: rest) from rfl,
        splitLines_append l0 _ (h l0 (by simp))]
    rw [ih l1 (fun l hl => h l (by simp [List.mem_cons] at hl ⊢; tauto))]

/-- A line is "clean" for the heuristic scanner when, after stripping, it is
empty, starts with a recognized statement keyword, or ends with a colon;
such a line never triggers the scanner's prose break. -/
def cleanLine (l : List Char) : Bool :=
  (pyStrip l).isEmpty || (breakKws.any fun k => isPrefixCh k (pyStrip l)) || endsColon (pyStrip l)

/-- A clean line in code mode is collected and scanning continues. -/
lemma scanLines_cons_clean (line : List Char) (ls : List (List Char))
    (h : cleanLine line = true) :
    scanLines (line :: ls) true = line :: scanLines ls true := by
  rw [scanLines]
  simp only [Bool.true_or, if_true]
  unfold cleanLine at h
  rcases Bool.or_eq_true_iff.1 h with h1 | h2
  · rcases Bool.or_eq_true_iff.1 h1 with he | hk
    · rw [if_neg (by simp [he])]
    · rw [if_neg (by simp [hk])]
  · by_cases hb : (!(pyStrip line).isEmpty && !(breakKws.any fun k => isPrefixCh k (pyStrip line))) = true
    · rw [if_pos hb, if_pos h2]
    · rw [if_neg hb]

/-- In code mode, a run of clean lines is collected verbatim. -/
lemma scanLines_clean_true (ls : List (List Char)) (h : ∀ l ∈ ls, cleanLine l = true) :
    scanLines ls true = ls := by
  induction ls with
  | nil => rfl
  | cons line rest ih =>
    rw [scanLines_cons_clean line rest (h line (by simp)), ih (fun l hl => h l (by simp [hl]))]

/-- A starter line switches the scanner into code mode. -/
lemma scanLines_start (line : List Char) (ls : List (List Char))
    (hs : (starterKws.any fun k => isPrefixCh k (pyStrip line)) = true) :
    scanLines (line :: ls) false = scanLines (line :: ls) true := by
  rw [scanLines, scanLines]
  simp only [hs, Bool.false_or, Bool.true_or]

/-- A first line without a starter keyword is skipped by the scanner. -/
lemma scanLines_no_starter (line : List Char) (ls : List (List Char))
    (hs : (starterKws.any fun k => isPrefixCh k (pyStrip line)) = false) :
    scanLines (line :: ls) false = scanLines ls false := by
  rw [scanLines]
  simp only [hs, Bool.false_or, Bool.false_eq_true, if_false]

/-- The scanner never returns more lines than it was given. -/
lemma scanLines_length_le (ls : List (List Char)) :
    ∀ b, (scanLines ls b).length ≤ ls.length := by
  induction ls with
  | nil => intro b; simp [scanLines]
  | cons line rest ih =>
    intro b
    simp only [scanLines]
    split
    · split
      · split
        · simpa using ih _
        · simp
      · simpa using ih _
    · exact Nat.le_trans (ih _) (by simp)

/-- Every line returned by the scanner is a line of the input. -/
lemma scanLines_mem (ls : List (List Char)) :
    ∀ b l, l ∈ scanLines ls b → l ∈ ls := by
  induction ls with
  | nil => intro b l h; simp [scanLines] at h
  | cons line rest ih =>
    intro b l h
    simp only [scanLines] at h
    split at h
    · split at h
      · split at h
        · rcases List.mem_cons.1 h with rfl | hm
          · simp
          · simp [ih _ l hm]
        · simp at h
      · rcases List.mem_cons.1 h with rfl | hm
        · simp
        · simp [ih _ l hm]
    · simp [ih _ l h]

/-- If the scanner, already in code mode, returns its input verbatim, every
input line was clean (no line triggered the prose break). -/
lemma scanLines_true_eq_imp_clean (ls : List (List Char))
    (h : scanLines ls true = ls) : ∀ l ∈ ls, cleanLine l = true := by
  induction ls with
  | nil => intro l hl; simp at hl
  | cons line rest ih =>
    rw [scanLines] at h
    simp only [Bool.true_or, if_true] at h
    by_cases hcond :
        (!(pyStrip line).isEmpty && !(breakKws.any fun k => isPrefixCh k (pyStrip line))) = true
    · rw [if_pos hcond] at h
      by_cases hcolon : endsColon (pyStrip line) = true
      · rw [if_pos hcolon] at h
        have htail : scanLines rest true = rest := by injection h
        intro l hl
        rcases List.mem_cons.1 hl with rfl | hm
        · unfold cleanLine
          rw [hcolon]
          simp
        · exact ih htail l hm
      · rw [if_neg hcolon] at h
        cases h
    · rw [if_neg hcond] at h
      have htail : scanLines rest true = rest := by injection h
      intro l hl
      rcases List.mem_cons.1 hl with rfl | hm
      · unfold cleanLine
        by_cases he : (pyStrip l).isEmpty = true
        · simp [he]
        · by_cases hk : (breakKws.any fun k => isPrefixCh k (pyStrip l)) = true
          · simp [hk]
          · exfalso
            apply hcond
            have he' : (pyStrip l).isEmpty = false := by
              revert he; cases (pyStrip l).isEmpty <;> simp
            have hk' : (breakKws.any fun k => isPrefixCh k (pyStrip l)) = false := by
              revert hk; cases (breakKws.any fun k => isPrefixCh k (pyStrip l)) <;> simp
            rw [he', hk']
            rfl
      · exact ih htail l hm

/-- C6 (amended, see the counterexample below): on fence-free text assembled
from newline-free lines, `extract_code` returns the input unchanged precisely
when the first stripped line begins with one of `import `/`from `/`def `/
`class ` and every stripped line is empty, starts with a recognized statement
keyword, or ends with a colon.  In particular clean keyword-free Python is
never returned unchanged (the scanner never enters code mode). -/
theorem extract_code_identity (l0 : List Char) (rest : List (List Char))
    (hfence : containsSub fenceTag (joinLines (l0 :: rest)) = false)
    (hnl : ∀ l ∈ l0 :: rest, '\n' ∉ l) :
    extract_code (joinLines (l0 :: rest)) = some (joinLines (l0 :: rest))
      ↔ ((starterKws.any fun k => isPrefixCh k (pyStrip l0)) = true
          ∧ ∀ l ∈ l0 :: rest, cleanLine l = true) := by
  have hpy : containsSub openPyTag (joinLines (l0 :: rest)) = false := by
    have he : openPyTag = fenceTag ++ chs "python\n" := by decide
    rw [he]; exact containsSub_append_of_not _ _ _ hfence
  have hplain : containsSub openPlainTag (joinLines (l0 :: rest)) = false := by
    have he : openPlainTag = fenceTag ++ chs "\n" := by decide
    rw [he]; exact containsSub_append_of_not _ _ _ hfence
  have hm1 : findFenced openPyTag (joinLines (l0 :: rest)) = [] :=
    findFencedF_nil _ _ _ (splitAtFirst_none _ _ hpy)
  have hm2 : findFenced openPlainTag (joinLines (l0 :: rest)) = [] :=
    findFencedF_nil _ _ _ (splitAtFirst_none _ _ hplain)
  have hsplit : splitLines (joinLines (l0 :: rest)) = l0 :: rest :=
    splitLines_joinLines l0 rest hnl
  have hext : extract_code (joinLines (l0 :: rest))
      = if !(scanLines (l0 :: rest) false).isEmpty
        then some (joinLines (scanLines (l0 :: rest) false)) else none := by
    simp only [extract_code, hm1, hm2, hsplit]
    simp
  constructor
  · intro hid
    rw [hext] at hid
    cases hcl : scanLines (l0 :: rest) false with
    | nil => rw [hcl] at hid; simp at hid
    | cons c cs =>
      rw [hcl] at hid
      simp only [List.isEmpty_cons, Bool.not_false, if_true, Option.some.injEq] at hid
      have hnl' : ∀ l ∈ c :: cs, '\n' ∉ l := fun l hl =>
        hnl l (scanLines_mem (l0 :: rest) false l (by rw [hcl]; exact hl))
      have heq : c :: cs = l0 :: rest := by
        have h1 := splitLines_joinLines c cs hnl'
        rw [hid, hsplit] at h1
        exact h1.symm
      have hscan : scanLines (l0 :: rest) false = l0 :: rest := by rw [hcl, heq]
      by_cases hstart : (starterKws.any fun k => isPrefixCh k (pyStrip l0)) = true
      · refine ⟨hstart, ?_⟩
        have h2 : scanLines (l0 :: rest) true = l0 :: rest := by
          rw [← scanLines_start l0 rest hstart]
          exact hscan
        exact scanLines_true_eq_imp_clean _ h2
      · exfalso
        have hsf : (starterKws.any fun k => isPrefixCh k (pyStrip l0)) = false := by
          revert hstart
          cases (starterKws.any fun k => isPrefixCh k (pyStrip l0)) <;> simp
        rw [scanLines_no_starter l0 rest hsf] at hscan
        have hlen := scanLines_length_le rest false
        rw [hscan] at hlen
        simp only [List.length_cons] at hlen
        omega
  · rintro ⟨hstart, hclean⟩
    rw [hext, scanLines_start l0 rest hstart,
        scanLines_cons_clean l0 rest (hclean l0 (by simp)),
        scanLines_clean_true rest (fun l hl => hclean l (by simp [hl]))]
    simp

/-- Counterexample to C6 as frozen: `x = 1` followed by `print(x)` is clean,
unfenced, keyword-free Python, yet extraction returns nothing at all (the
scanner never enters code mode), not the unchanged input. -/
theorem extract_code_keyword_free_counterexample :
    extract_code (chs "x = 1\nprint(x)") = none
    ∧ extract_code (chs "x = 1\nprint(x)") ≠ some (chs "x = 1\nprint(x)") :=
  ⟨by decide, by decide⟩

/-- Witness for the amended C6 on a two-line import/print program. -/
theorem extract_code_identity_witness :
    extract_code (joinLines [chs "import os", chs "print(os)"])
      = some (joinLines [chs "import os", chs "print(os)"]) :=
  (extract_code_identity (chs "import os") [chs "print(os)"]
    (by decide) (by decide)).mpr ⟨by decide, by decide⟩

/-- Containment in the right part survives prepending. -/
lemma containsSub_append_right (pat pre post : List Char) (h : containsSub pat post = true) :
    containsSub pat (pre ++ post) = true := by
  induction pre with
  | nil => exact h
  | cons c pre ih =>
    rw [List.cons_append, containsSub, ih, Bool.or_true]

/-- C7: when synthesis occurs (no `__main__`, no `print(`, and a function was
selected), the epilogue's argument is the lowercased goal's first integer
token if the goal mentions "prime" and has an integer token; the literal 40
if it mentions "prime" and "first" with no integer token; and empty
otherwise — and the epilogue always prints the call's result. -/
theorem entry_point_argument (code goal fn : List Char)
    (hmain : containsSub (chs "__main__") code = false)
    (hprint : containsSub (chs "print(") code = false)
    (hfn : selectMainFunc (findDefs code) = some fn) :
    (∀ tok toks, findTokens false (pyLower goal) = tok :: toks →
        containsSub (chs "prime") (pyLower goal) = true →
        ensureEntryPoint code goal = code ++ epilogue fn tok)
    ∧ (findTokens false (pyLower goal) = [] →
        containsSub (chs "prime") (pyLower goal) = true →
        containsSub (chs "first") (pyLower goal) = true →
        ensureEntryPoint code goal = code ++ epilogue fn (chs "40"))
    ∧ ((containsSub (chs "prime") (pyLower goal) = false ∨
        (findTokens false (pyLower goal) = [] ∧
          containsSub (chs "first") (pyLower goal) = false)) →
        ensureEntryPoint code goal = code ++ epilogue fn [])
    ∧ (∀ arg, containsSub (chs "print(result)") (epilogue fn arg) = true) := by
  refine ⟨?_, ?_, ?_, ?_⟩
  · intro tok toks htoks hprime
    simp [ensureEntryPoint, hmain, hprint, hfn, htoks, hprime]
  · intro h0 hprime hfirst
    simp [ensureEntryPoint, hmain, hprint, hfn, h0, hprime, hfirst]
  · intro h
    rcases h with hp | ⟨h0, hfirst⟩
    · simp [ensureEntryPoint, hmain, hprint, hfn, hp]
    · simp [ensureEntryPoint, hmain, hprint, hfn, h0, hfirst]
  · intro arg
    unfold epilogue
    repeat' apply containsSub_append_right
    decide

/-- Witness for C7: a prime goal with a literal count, and the printing
epilogue. -/
theorem entry_point_argument_witness :
    ensureEntryPoint (chs "def find_primes(n):\n    return n") (chs "find the first 7 primes")
      = chs "def find_primes(n):\n    return n" ++ epilogue (chs "find_primes") (chs "7")
    ∧ containsSub (chs "print(result)") (epilogue (chs "find_primes") (chs "7")) = true :=
  ⟨(entry_point_argument (chs "def find_primes(n):\n    return n")
      (chs "find the first 7 primes") (chs "find_primes")
      (by decide) (by decide) (by decide)).1 (chs "7") [] (by decide) (by decide),
   (entry_point_argument (chs "def find_primes(n):\n    return n")
      (chs "find the first 7 primes") (chs "find_primes")
      (by decide) (by decide) (by decide)).2.2.2 (chs "7")⟩
